import Mathlib

/-
Verification development for the experience store of SugaR-AI-ICCF
(src/src/experience.cpp). The in-memory Ranked Chain Index, the on-disk
record codec, the load loop with its cooperative abort flag, and the
save/backup/restore protocol are embedded as executable Lean functions.

Pointer chains are embedded as lists, the unordered_map as an association
list (iteration order = list order; the order across keys is unspecified
in the spec), byte-level file contents as lists of byte values (Nat < 256),
and the loader thread is linearised (its effect is applied at the point the
worker would complete).  Declarations from the missing header experience.h
(ExpEntry layout, compare, merge, find, MIN_EXP_DEPTH) and from the missing
Utility unit (map_path, unquote, file primitives) are modelled from the
spec; each such definition carries a doc comment saying so.
-/

namespace SugaR

/-- Stored Record (from src/src/experience.cpp usage of ExpEntry; the struct
itself lives in the missing header).  Modelled from the spec §3/§6: key is an
opaque 64-bit value, move a fixed-width encoded value, value a signed integer
evaluation, depth an unsigned search depth. -/
structure ExpEntry where
  key : Nat
  move : Nat
  value : Int
  depth : Nat
deriving DecidableEq

/-- Modelled from the spec: the ranking rule of §4.2 as the strict comparison
used by the missing header member compare (`expEx->compare(expEx2) > 0`):
order by depth descending, ties broken by value descending. -/
abbrev rankGT (a b : ExpEntry) : Prop :=
  b.depth < a.depth ∨ (a.depth = b.depth ∧ b.value < a.value)

/-- Modelled from the spec: the non-strict ranking relation; a chain is in
rank order when every adjacent pair satisfies it. -/
abbrev rankGE (a b : ExpEntry) : Prop :=
  b.depth < a.depth ∨ (a.depth = b.depth ∧ b.value ≤ a.value)

/-- Boolean sortedness check of a chain under the ranking rule: every
adjacent pair (a, b) with a before b satisfies rankGE a b. -/
def chainSortedB : List ExpEntry → Bool
  | [] => true
  | [_] => true
  | a :: b :: rest => decide (rankGE a b) && chainSortedB (b :: rest)

/-- Modelled from the spec §4.2: merging two Stored Records for the same
(key, move) keeps the pair with the higher depth; on equal depth, the pair
with the higher value (the merge member lives in the missing header). -/
def ExpEntry.merge (old e : ExpEntry) : ExpEntry :=
  if old.depth < e.depth ∨ (e.depth = old.depth ∧ old.value < e.value) then
    { old with value := e.value, depth := e.depth }
  else old

/-- Modelled from the spec §4.2: insertion keeping the chain sorted by the
ranking rule (place the record before the first record it outranks); used by
the spec-modelled merge re-sort step. -/
def insertRanked (e : ExpEntry) : List ExpEntry → List ExpEntry
  | [] => [e]
  | c :: rest => if rankGT e c then e :: c :: rest else c :: insertRanked e rest

/-- The do-while insertion loop of link_entry (src lines 121-147), for the
part of the chain after the head: when the new record outranks the current
node expEx2 (and expEx2 is not the head), the code sets
`expEx->next = expEx2->next; expEx2->next = expEx`, which places the new
record immediately AFTER expEx2; when the end is reached it is appended. -/
def spliceAfter (e : ExpEntry) : List ExpEntry → List ExpEntry
  | [] => [e]
  | c :: rest => if rankGT e c then c :: e :: rest else c :: spliceAfter e rest

/-- The whole insertion of link_entry (src lines 121-147): if the new record
outranks the head it becomes the new head; otherwise the loop above runs over
the tail of the chain. -/
def chainInsert (e : ExpEntry) : List ExpEntry → List ExpEntry
  | [] => [e]
  | c :: rest => if rankGT e c then e :: c :: rest else c :: spliceAfter e rest

/-- Modelled from the spec §4.2: the merged branch of link.  The merge member
updates the found slot in place; per the spec, the node is re-sorted by the
ranking rule when the merged depth/value changed its rank relative to its
neighbours (the precise member code lives in the missing header). -/
def mergeChain (c : List ExpEntry) (e : ExpEntry) : List ExpEntry :=
  let updated := c.map fun x => if x.move == e.move then ExpEntry.merge x e else x
  if chainSortedB updated then updated
  else
    match updated.find? (fun x => x.move == e.move) with
    | some node => insertRanked node (updated.filter fun x => !(x.move == e.move))
    | none => updated

/-- A chain: the singly linked list hanging off one map slot. -/
abbrev Chain := List ExpEntry

/-- The Ranked Chain Index: unordered_map from key to chain head, embedded as
an association list whose order is the iteration order. -/
abbrev ExpMap := List (Nat × Chain)

/-- The map lookup _mainExp.find(key) (src line 103). -/
def mapFind (m : ExpMap) (k : Nat) : Option Chain :=
  (m.find? (fun p => p.1 == k)).map (fun p => p.2)

/-- Writing through the map iterator (`itr->second = expEx`, src line 128) or
mutating the found chain in place: replace the chain stored under key k. -/
def mapUpdate (m : ExpMap) (k : Nat) (c : Chain) : ExpMap :=
  m.map fun p => if p.1 == k then (p.1, c) else p

/-- ExperienceData::link_entry (src lines 101-152).  Returns the new index and
true for Inserted / false for Merged.  The scan for an existing move
(`itr->second->find(expEx->move)`) is modelled from the spec §4.2 as a scan of
the chain for a record with the same Move. -/
def link_entry (m : ExpMap) (e : ExpEntry) : ExpMap × Bool :=
  match mapFind m e.key with
  | none => (m ++ [(e.key, [e])], true)
  | some c =>
    match c.find? (fun x => x.move == e.move) with
    | some _ => (mapUpdate m e.key (mergeChain c e), false)
    | none => (mapUpdate m e.key (chainInsert e c), true)

/-- Folding link_entry over a sequence of records (the load loop does exactly
this, src line 238). -/
def linkAll (es : List ExpEntry) (m : ExpMap) : ExpMap :=
  es.foldl (fun m e => (link_entry m e).1) m

/-- The chain stored for key k (empty when the key is absent). -/
def chainOf (m : ExpMap) (k : Nat) : Chain :=
  (mapFind m k).getD []

/-- Per-key characterisation of one link step, as a function of the previous
chain contents (none = key absent). -/
def chainStep (oc : Option Chain) (e : ExpEntry) : Chain :=
  match oc with
  | none => [e]
  | some c =>
    match c.find? (fun x => x.move == e.move) with
    | some _ => mergeChain c e
    | none => chainInsert e c

/-- Little-endian byte encoding of a natural number in w bytes.  Modelled
from the spec §6: records are written with fixed-width fields and no
padding. -/
def toLE : Nat → Nat → List Nat
  | 0, _ => []
  | w + 1, n => n % 256 :: toLE w (n / 256)

/-- Little-endian byte decoding. -/
def fromLE : List Nat → Nat
  | [] => 0
  | b :: bs => b % 256 + 256 * fromLE bs

/-- Two-complement 32-bit image of a signed evaluation. -/
def toUnsigned32 (v : Int) : Nat := (v % (4294967296 : Int)).toNat

/-- Reading a 32-bit field back as a signed value. -/
def toSigned32 (n : Nat) : Int :=
  if n < 2147483648 then (n : Int) else (n : Int) - 4294967296

/-- Modelled from the spec §6: field widths of the Stored Record: key 8
bytes, move 4 bytes, value 4 bytes signed, depth 4 bytes unsigned. -/
def encodeRecord (e : ExpEntry) : List Nat :=
  toLE 8 e.key ++ toLE 4 e.move ++ toLE 4 (toUnsigned32 e.value) ++ toLE 4 e.depth

/-- sizeof(ExpEntry): total record width, from the widths above. -/
def sizeofExpEntry : Nat := 20

/-- Decoding one record from its 20 bytes. -/
def decodeRecord (bs : List Nat) : ExpEntry :=
  { key := fromLE (bs.take 8)
  , move := fromLE ((bs.drop 8).take 4)
  , value := toSigned32 (fromLE ((bs.drop 12).take 4))
  , depth := fromLE ((bs.drop 16).take 4) }

/-- The record with every field reduced to its on-disk width (what a record
becomes after an encode/decode round trip). -/
def ExpEntry.norm (e : ExpEntry) : ExpEntry :=
  { key := e.key % 2 ^ 64
  , move := e.move % 2 ^ 32
  , value := toSigned32 (toUnsigned32 e.value)
  , depth := e.depth % 2 ^ 32 }

/-- A record whose fields all fit their on-disk widths. -/
def ExpEntry.wf (e : ExpEntry) : Prop :=
  e.key < 2 ^ 64 ∧ e.move < 2 ^ 32 ∧ e.depth < 2 ^ 32 ∧
    -(2 ^ 31 : Int) ≤ e.value ∧ e.value < 2 ^ 31

instance (e : ExpEntry) : Decidable e.wf := by
  unfold ExpEntry.wf
  exact inferInstance

/-- The file signature "SugaR" as bytes (src lines 46-47). -/
def ExperienceSignature : List Nat := [83, 117, 103, 97, 82]

/-- strlen of the signature (src line 47). -/
def ExperienceSignatureLength : Nat := 5

/-- size_t subtraction (the code computes `inSize - ExperienceSignatureLength`
on unsigned 64-bit values, src line 170). -/
def sub64 (a b : Nat) : Nat :=
  (a + (18446744073709551616 - b)) % 18446744073709551616

/-- Events of the load loop, at record granularity: one abort-flag check, one
record read, one link per iteration (src lines 219-240). -/
inductive LoadEv where
  | checkFlag (i : Nat)
  | readRec (i : Nat)
  | linkRec (i : Nat)
deriving DecidableEq

/-- The distinct diagnostic outcomes of ExperienceData::_load (each maps to
one `info string` message; aborted returns false with no message). -/
inductive LoadError where
  | unreadable
  | empty
  | corrupt
  | sigReadFail
  | signatureMismatch
  | readFail
  | aborted
deriving DecidableEq

/-- Boolean result of a load, tagged with the failure cause. -/
inductive LoadOutcome where
  | ok
  | error (e : LoadError)
deriving DecidableEq

/-- How the record loop ended. -/
inductive LoopExit where
  | completed
  | aborted
  | readFail
deriving DecidableEq

/-- One `in.read((char*)expEx, sizeof(ExpEntry))` at record index i: the
stream position after the signature and i records (src line 229). -/
def readRecord (bytes : List Nat) (i : Nat) : Option ExpEntry :=
  let slice := (bytes.drop (ExperienceSignatureLength + i * sizeofExpEntry)).take sizeofExpEntry
  if slice.length = sizeofExpEntry then some (decodeRecord slice) else none

/-- The record loop of _load (src lines 219-240): at each iteration the abort
flag is read once; if set the loop breaks; otherwise the record is read (a
short read aborts the whole load) and linked.  abortAt i is the value the
atomic flag read returns at iteration i.  The trace records the order of
checks, reads and links. -/
def loadLoop (bytes : List Nat) (abortAt : Nat → Bool) :
    Nat → Nat → ExpMap → ExpMap × List LoadEv × LoopExit
  | _, 0, st => (st, [], LoopExit.completed)
  | i, r + 1, st =>
    if abortAt i then (st, [LoadEv.checkFlag i], LoopExit.aborted)
    else
      match readRecord bytes i with
      | none => (st, [LoadEv.checkFlag i, LoadEv.readRec i], LoopExit.readFail)
      | some e =>
        let res := loadLoop bytes abortAt (i + 1) r (link_entry st e).1
        (res.1, LoadEv.checkFlag i :: LoadEv.readRec i :: LoadEv.linkRec i :: res.2.1, res.2.2)

/-- ExperienceData::_load (src lines 154-269).  file is none when the file
cannot be opened; otherwise its bytes.  Returns the updated index, the loop
trace and the outcome.  The signature allocation and the record-buffer
allocation are modelled as succeeding (their failures are allocation events
outside the embedding); the statistics printing is log-only and omitted.
After the loop the code re-reads the abort flag once more (src line 246);
that read is modelled as abortAt expCount. -/
def _load (file : Option (List Nat)) (st : ExpMap) (abortAt : Nat → Bool) :
    ExpMap × List LoadEv × LoadOutcome :=
  match file with
  | none => (st, [], LoadOutcome.error LoadError.unreadable)
  | some bytes =>
    if bytes.length = 0 then (st, [], LoadOutcome.error LoadError.empty)
    else
      let expDataSize := sub64 bytes.length ExperienceSignatureLength
      let expCount := expDataSize / sizeofExpEntry
      if expCount * sizeofExpEntry ≠ expDataSize then
        (st, [], LoadOutcome.error LoadError.corrupt)
      else if bytes.length < ExperienceSignatureLength then
        (st, [], LoadOutcome.error LoadError.sigReadFail)
      else if bytes.take ExperienceSignatureLength ≠ ExperienceSignature then
        (st, [], LoadOutcome.error LoadError.signatureMismatch)
      else
        let res := loadLoop bytes abortAt 0 expCount st
        match res.2.2 with
        | LoopExit.readFail => (res.1, res.2.1, LoadOutcome.error LoadError.readFail)
        | _ =>
          if abortAt expCount then (res.1, res.2.1, LoadOutcome.error LoadError.aborted)
          else (res.1, res.2.1, LoadOutcome.ok)

/-- The store instance (class ExperienceData, src lines 49-525): one
filename, the Ranked Chain Index, the two Pending Buffers, and the last load
result.  The loader-thread plumbing (_loading, _loaderThread, mutex,
condition variable) is linearised away. -/
structure ExperienceData where
  filename : String
  mainExp : ExpMap
  newPvExp : List ExpEntry
  newMultiPvExp : List ExpEntry
  loadingResult : Bool
deriving DecidableEq

/-- ExperienceData::has_new_exp (src lines 398-401). -/
def ExperienceData.has_new_exp (st : ExperienceData) : Bool :=
  !st.newPvExp.isEmpty || !st.newMultiPvExp.isEmpty

/-- ExperienceData::loading_result (src lines 446-449). -/
def ExperienceData.loading_result (st : ExperienceData) : Bool :=
  st.loadingResult

/-- ExperienceData::wait_for_load_finished (src lines 439-444): blocks until
the worker is idle and returns the stored result; in the linearised model the
worker has completed, so it returns the stored flag. -/
def ExperienceData.wait_for_load_finished (st : ExperienceData) : Bool :=
  st.loadingResult

/-- ExperienceData::load (src lines 403-437): waits for any prior load,
resets the result flag, runs the worker (modelled at its completion point),
and returns `synchronous ? wait_for_load_finished() : true`. -/
def ExperienceData.load (st : ExperienceData) (file : Option (List Nat)) (fn : String)
    (synchronous : Bool) (abortAt : Nat → Bool) : ExperienceData × Bool :=
  let st0 := { st with filename := fn, loadingResult := false }
  let res := _load file st0.mainExp abortAt
  let st1 := { st0 with mainExp := res.1, loadingResult := res.2.2 == LoadOutcome.ok }
  (st1, if synchronous then st1.wait_for_load_finished else true)

/-- Modelled from the spec §7: the minimum-depth-to-persist threshold
(MIN_EXP_DEPTH in the missing header, a configuration constant; its exact
value is immaterial to the claims). -/
def MIN_EXP_DEPTH : Nat := 4

/-- Output stream state during one _save: bytes flushed so far, the number of
write calls attempted, and the sticky fail state of the fstream.  A write on
a failed stream does nothing and leaves the stream failed. -/
structure OutS where
  buf : List Nat
  ops : Nat
  bad : Bool
deriving DecidableEq

/-- One out.write call.  failFrom injects a write failure at the given write
index (none = all writes succeed); once failed the stream stays failed. -/
def owrite (failFrom : Option Nat) (o : OutS) (data : List Nat) : OutS :=
  if o.bad then { o with ops := o.ops + 1 }
  else if failFrom = some o.ops then { buf := o.buf, ops := o.ops + 1, bad := true }
  else { buf := o.buf ++ data, ops := o.ops + 1, bad := false }

/-- The compaction phase of _save (src lines 302-321): for every chain, in
index iteration order, write every record whose depth meets the minimum.
These writes are NOT checked for failure in the source. -/
def writeAll (failFrom : Option Nat) (m : ExpMap) (o : OutS) : OutS :=
  m.foldl
    (fun o p =>
      p.2.foldl
        (fun o e =>
          if MIN_EXP_DEPTH ≤ e.depth then owrite failFrom o (encodeRecord e) else o)
        o)
    o

/-- One pending-buffer phase of _save (src lines 323-362): skip entries below
the minimum depth, write each remaining entry and check the stream after each
write; on failure return false immediately. -/
def writePending (failFrom : Option Nat) : List ExpEntry → OutS → OutS × Bool
  | [], o => (o, true)
  | e :: rest, o =>
    if e.depth < MIN_EXP_DEPTH then writePending failFrom rest o
    else
      let o2 := owrite failFrom o (encodeRecord e)
      if o2.bad then (o2, false) else writePending failFrom rest o2

/-- ExperienceData::_save (src lines 271-377).  oldContent is the current
contents of the target file (the stream is opened in append mode; the open
itself is modelled as succeeding).  If the file is empty the signature is
written first (checked); then, when saveAll, every chain record at or above
the minimum depth (unchecked writes); then both Pending Buffers (checked
writes).  Only on reaching the end are the Pending Buffers cleared.  Returns
the store, the bytes appended to the file (whatever was flushed before any
failure), and the boolean result. -/
def _save (st : ExperienceData) (oldContent : List Nat) (saveAll : Bool)
    (failFrom : Option Nat) : ExperienceData × List Nat × Bool :=
  let o0 : OutS := ⟨[], 0, false⟩
  let o1 := if oldContent.length = 0 then owrite failFrom o0 ExperienceSignature else o0
  if o1.bad then (st, o1.buf, false)
  else
    let o2 := if saveAll then writeAll failFrom st.mainExp o1 else o1
    match writePending failFrom st.newPvExp o2 with
    | (o3, false) => (st, o3.buf, false)
    | (o3, true) =>
      match writePending failFrom st.newMultiPvExp o3 with
      | (o4, false) => (st, o4.buf, false)
      | (o4, true) => ({ st with newPvExp := [], newMultiPvExp := [] }, o4.buf, true)

/-- The file system: an association from names to byte contents.  Modelled
from the spec §6 (file-existence check, delete and rename primitives). -/
abbrev FS := List (String × List Nat)

/-- Modelled from the spec §6: the path-mapping utility resolving a logical
filename; modelled as the identity on logical names (Utility::map_path lives
outside src). -/
def map_path (s : String) : String := s

/-- Modelled from the spec §6: file-existence check (Utility::file_exists). -/
def file_exists (fs : FS) (n : String) : Bool :=
  (fs.find? (fun p => p.1 == n)).isSome

/-- Contents of a file, none when absent. -/
def fsLookup (fs : FS) (n : String) : Option (List Nat) :=
  (fs.find? (fun p => p.1 == n)).map (fun p => p.2)

/-- Modelled from the spec §6: the delete primitive (remove). -/
def fsRemove (fs : FS) (n : String) : FS :=
  fs.filter (fun p => !(p.1 == n))

/-- Create or overwrite a file. -/
def fsSet (fs : FS) (n : String) (b : List Nat) : FS :=
  fsRemove fs n ++ [(n, b)]

/-- Modelled from the spec §6: the rename primitive; replaces the target as
POSIX rename does, and does nothing when the source is absent. -/
def fsRename (fs : FS) (src dst : String) : FS :=
  match fsLookup fs src with
  | none => fs
  | some b => fsSet (fsRemove fs src) dst b

/-- ExperienceData::save (src lines 451-503).  Skips when there is nothing to
persist; when compacting over an existing target, deletes any stale backup
and renames the target to `<file>.bak` (both primitives modelled as
succeeding); runs _save; on _save failure renames the backup back over the
target.  Returns the store, the file system, and the boolean result of _save
(true when the save was skipped). -/
def ExperienceData.save (st : ExperienceData) (fs : FS) (fn : String) (saveAll : Bool)
    (failFrom : Option Nat) : ExperienceData × FS × Bool :=
  if !st.has_new_exp && (!saveAll || st.mainExp.isEmpty) then (st, fs, true)
  else
    let expFilename := map_path fn
    let backup :=
      if saveAll && file_exists fs expFilename then some (expFilename ++ ".bak")
      else none
    let fs1 :=
      match backup with
      | some bak => fsRename (fsRemove fs bak) expFilename bak
      | none => fs
    let oldContent := (fsLookup fs1 expFilename).getD []
    let r := _save st oldContent saveAll failFrom
    let fs2 := fsSet fs1 expFilename (oldContent ++ r.2.1)
    if r.2.2 then (r.1, fs2, true)
    else
      match backup with
      | some bak => (r.1, fsRename fs2 bak expFilename, false)
      | none => (r.1, fs2, false)

/-- Modelled from the spec §6: Utility::unquote strips a surrounding pair of
double quotes (character code 34) from a filename. -/
def unquote (s : String) : String :=
  if 2 ≤ s.data.length ∧ s.data.head? = some (Char.ofNat 34) ∧
      s.data.getLast? = some (Char.ofNat 34)
  then String.mk ((s.data.drop 1).dropLast)
  else s

/-- Result of parsing the defrag command line. -/
inductive DefragOutcome where
  | rejected
  | proceeds (filename : String)
deriving DecidableEq

/-- Experience::defrag argument handling (src lines 606-630): argv is the
full argument vector (argv[0] the program, argv[1] the command word, argv[2]
the filename); the code rejects any invocation whose argc differs from 3,
otherwise it proceeds with map_path(unquote(argv[2])) mapped once more. -/
def defrag (argv : List String) : DefragOutcome :=
  if argv.length ≠ 3 then DefragOutcome.rejected
  else DefragOutcome.proceeds (map_path (map_path (unquote (argv.getD 2 ""))))

/-- The byte contents of a well-formed experience file holding the given
records: the signature followed by the records with no padding (spec §6). -/
def encodeFile (rs : List ExpEntry) : List Nat :=
  ExperienceSignature ++ (rs.map encodeRecord).flatten

/-- The records a compacting _save writes, in the order it writes them:
every chain in index iteration order, each filtered to the minimum depth. -/
def savedRecords (m : ExpMap) : List ExpEntry :=
  (m.map (fun p => p.2.filter (fun e => MIN_EXP_DEPTH ≤ e.depth))).flatten

theorem length_toLE (w n : Nat) : (toLE w n).length = w := by
  induction w generalizing n with
  | zero => rfl
  | succ w ih => simp [toLE, ih]

theorem fromLE_toLE (w n : Nat) : fromLE (toLE w n) = n % 256 ^ w := by
  induction w generalizing n with
  | zero => simp [toLE, fromLE, Nat.mod_one]
  | succ w ih =>
    have h256 : (256 : Nat) ^ (w + 1) = 256 * 256 ^ w := by ring
    rw [toLE, fromLE, ih, h256, Nat.mod_mul, Nat.mod_mod_of_dvd n (dvd_refl 256)]

theorem take_append_len {α : Type} (l1 l2 : List α) (n : Nat) (h : l1.length = n) :
    (l1 ++ l2).take n = l1 := by
  subst h
  exact List.take_left _ _

theorem drop_append_len {α : Type} (l1 l2 : List α) (n : Nat) (h : l1.length = n) :
    (l1 ++ l2).drop n = l2 := by
  subst h
  exact List.drop_left _ _

theorem length_encodeRecord (e : ExpEntry) : (encodeRecord e).length = 20 := by
  simp [encodeRecord, length_toLE]

theorem toUnsigned32_lt (v : Int) : toUnsigned32 v < 2 ^ 32 := by
  unfold toUnsigned32
  omega

theorem decode_encode (e : ExpEntry) : decodeRecord (encodeRecord e) = e.norm := by
  have hk := length_toLE 8 e.key
  have hm := length_toLE 4 e.move
  have hv := length_toLE 4 (toUnsigned32 e.value)
  have h1 : (toLE 8 e.key ++ (toLE 4 e.move ++ (toLE 4 (toUnsigned32 e.value) ++ toLE 4 e.depth))).take 8
      = toLE 8 e.key := take_append_len _ _ 8 hk
  have h2 : (toLE 8 e.key ++ (toLE 4 e.move ++ (toLE 4 (toUnsigned32 e.value) ++ toLE 4 e.depth))).drop 8
      = toLE 4 e.move ++ (toLE 4 (toUnsigned32 e.value) ++ toLE 4 e.depth) := drop_append_len _ _ 8 hk
  have h3 : ((toLE 4 e.move ++ (toLE 4 (toUnsigned32 e.value) ++ toLE 4 e.depth))).take 4
      = toLE 4 e.move := take_append_len _ _ 4 hm
  have h4 : (toLE 8 e.key ++ (toLE 4 e.move ++ (toLE 4 (toUnsigned32 e.value) ++ toLE 4 e.depth))).drop 12
      = toLE 4 (toUnsigned32 e.value) ++ toLE 4 e.depth := by
    rw [show (12 : Nat) = 8 + 4 by rfl, ← List.drop_drop, h2]
    exact drop_append_len _ _ 4 hm
  have h5 : ((toLE 4 (toUnsigned32 e.value) ++ toLE 4 e.depth)).take 4
      = toLE 4 (toUnsigned32 e.value) := take_append_len _ _ 4 hv
  have h6 : (toLE 8 e.key ++ (toLE 4 e.move ++ (toLE 4 (toUnsigned32 e.value) ++ toLE 4 e.depth))).drop 16
      = toLE 4 e.depth := by
    rw [show (16 : Nat) = 12 + 4 by rfl, ← List.drop_drop, h4]
    exact drop_append_len _ _ 4 hv
  have hval : toUnsigned32 e.value % 256 ^ 4 = toUnsigned32 e.value :=
    Nat.mod_eq_of_lt (by have := toUnsigned32_lt e.value; norm_num at this ⊢; omega)
  have h7 : (toLE 4 e.depth).take 4 = toLE 4 e.depth :=
    List.take_of_length_le (le_of_eq (length_toLE 4 e.depth))
  simp only [decodeRecord, encodeRecord, List.append_assoc, h1, h2, h3, h4, h5, h6, h7,
    fromLE_toLE, ExpEntry.norm, hval]
  norm_num

theorem norm_of_wf (e : ExpEntry) (h : e.wf) : e.norm = e := by
  obtain ⟨h1, h2, h3, h4, h5⟩ := h
  have hv : toSigned32 (toUnsigned32 e.value) = e.value := by
    unfold toSigned32 toUnsigned32
    split <;> omega
  norm_num at h1 h2 h3
  cases e with
  | mk k m v d =>
    simp only [ExpEntry.norm, hv] at *
    simp only [ExpEntry.mk.injEq]
    norm_num
    try omega

theorem map_norm_of_wf (rs : List ExpEntry) (h : ∀ e ∈ rs, e.wf) :
    rs.map ExpEntry.norm = rs := by
  induction rs with
  | nil => rfl
  | cons a l ih =>
    simp only [List.map_cons, norm_of_wf a (h a (by simp)), ih fun e he => h e (by simp [he])]

theorem length_encodeFile (rs : List ExpEntry) :
    (encodeFile rs).length = 5 + 20 * rs.length := by
  induction rs with
  | nil => rfl
  | cons a l ih =>
    simp only [encodeFile, List.map_cons, List.flatten_cons, List.length_append] at ih ⊢
    simp [length_encodeRecord, ExperienceSignature] at ih ⊢
    omega

theorem drop_flatten_encode (rs : List ExpEntry) (i : Nat) :
    ((rs.map encodeRecord).flatten).drop (20 * i) = (((rs.drop i).map encodeRecord)).flatten := by
  induction i generalizing rs with
  | zero => simp
  | succ i ih =>
    cases rs with
    | nil => simp
    | cons a l =>
      have h20 : 20 * (i + 1) = (encodeRecord a).length + 20 * i := by
        rw [length_encodeRecord]; ring
      simp only [List.map_cons, List.flatten_cons, h20]
      rw [← List.drop_drop, List.drop_left, ih, List.drop_succ_cons]

theorem readRecord_encodeFile (rs : List ExpEntry) (i : Nat) (h : i < rs.length) :
    readRecord (encodeFile rs) i = some (rs.get ⟨i, h⟩).norm := by
  have h0 : (encodeFile rs).drop 5 = (rs.map encodeRecord).flatten :=
    drop_append_len _ _ 5 rfl
  have hdrop : (encodeFile rs).drop (5 + i * 20) = (((rs.drop i).map encodeRecord)).flatten := by
    rw [← List.drop_drop, h0, show i * 20 = 20 * i by ring, drop_flatten_encode]
  have hcons : rs.drop i = rs.get ⟨i, h⟩ :: rs.drop (i + 1) := by
    rw [List.drop_eq_getElem_cons h, List.get_eq_getElem]
  have htake : ((((rs.drop i).map encodeRecord)).flatten).take 20 = encodeRecord (rs.get ⟨i, h⟩) := by
    rw [hcons, List.map_cons, List.flatten_cons]
    exact take_append_len _ _ 20 (length_encodeRecord _)
  unfold readRecord
  simp only [ExperienceSignatureLength, sizeofExpEntry, hdrop, htake, length_encodeRecord,
    decode_encode]
  simp

theorem loadLoop_noAbort (rs : List ExpEntry) (sched : Nat → Bool)
    (hs : ∀ t, t < rs.length → sched t = false) :
    ∀ (r i : Nat) (st : ExpMap), i + r = rs.length →
      loadLoop (encodeFile rs) sched i r st =
        (linkAll ((rs.drop i).map ExpEntry.norm) st,
         (List.range' i r).flatMap (fun t => [LoadEv.checkFlag t, LoadEv.readRec t, LoadEv.linkRec t]),
         LoopExit.completed) := by
  intro r
  induction r with
  | zero =>
    intro i st hir
    have : rs.drop i = [] := List.drop_eq_nil_of_le (by omega)
    simp [loadLoop, this, linkAll, List.range']
  | succ r ih =>
    intro i st hir
    have hi : i < rs.length := by omega
    have hsched : sched i = false := hs i hi
    have hread := readRecord_encodeFile rs i hi
    have hcons : rs.drop i = rs.get ⟨i, hi⟩ :: rs.drop (i + 1) := by
      rw [List.drop_eq_getElem_cons hi, List.get_eq_getElem]
    rw [loadLoop, hsched]
    simp only [Bool.false_eq_true, if_false, hread]
    rw [ih (i + 1) (link_entry st (rs.get ⟨i, hi⟩).norm).1 (by omega)]
    simp only [hcons, List.map_cons, List.range']
    rfl

theorem loadLoop_schedJ (rs : List ExpEntry) (j : Nat) :
    ∀ (r i : Nat) (st : ExpMap), i + r = rs.length → i ≤ j →
      loadLoop (encodeFile rs) (fun t => decide (j ≤ t)) i r st =
        (linkAll (((rs.drop i).take (min j rs.length - i)).map ExpEntry.norm) st,
         (List.range' i (min j rs.length - i)).flatMap
           (fun t => [LoadEv.checkFlag t, LoadEv.readRec t, LoadEv.linkRec t])
           ++ (if j < rs.length then [LoadEv.checkFlag j] else []),
         if j < rs.length then LoopExit.aborted else LoopExit.completed) := by
  intro r
  induction r with
  | zero =>
    intro i st hir hij
    have h1 : min j rs.length - i = 0 := by omega
    have h2 : ¬ j < rs.length := by omega
    simp [loadLoop, h1, h2, linkAll, List.range']
  | succ r ih =>
    intro i st hir hij
    have hi : i < rs.length := by omega
    rw [loadLoop]
    by_cases hj : j ≤ i
    · have hji : j = i := by omega
      have h1 : min j rs.length - i = 0 := by omega
      have h2 : j < rs.length := by omega
      simp [hj, h1, h2, hji, hi, linkAll, List.range']
    · have hsched : decide (j ≤ i) = false := by simp; omega
      have hread := readRecord_encodeFile rs i hi
      have hcons : rs.drop i = rs.get ⟨i, hi⟩ :: rs.drop (i + 1) := by
        rw [List.drop_eq_getElem_cons hi, List.get_eq_getElem]
      simp only [hsched, Bool.false_eq_true, if_false, hread]
      rw [ih (i + 1) (link_entry st (rs.get ⟨i, hi⟩).norm).1 (by omega) (by omega)]
      have hmin : min j rs.length - i = (min j rs.length - (i + 1)) + 1 := by omega
      simp only [hcons, hmin, List.take_succ_cons, List.map_cons, List.range']
      rfl

theorem load_encodeFile_noAbort (rs : List ExpEntry) (st : ExpMap) (sched : Nat → Bool)
    (hsz : 5 + 20 * rs.length < 2 ^ 64) (hs : ∀ t, t ≤ rs.length → sched t = false) :
    _load (some (encodeFile rs)) st sched =
      (linkAll (rs.map ExpEntry.norm) st,
       (List.range' 0 rs.length).flatMap
         (fun t => [LoadEv.checkFlag t, LoadEv.readRec t, LoadEv.linkRec t]),
       LoadOutcome.ok) := by
  have hlen : (encodeFile rs).length = 5 + 20 * rs.length := length_encodeFile rs
  have hnz : ¬ (encodeFile rs).length = 0 := by omega
  have hsub : sub64 (encodeFile rs).length ExperienceSignatureLength = 20 * rs.length := by
    rw [hlen]
    unfold sub64 ExperienceSignatureLength
    norm_num at hsz ⊢
    omega
  have hcount : 20 * rs.length / sizeofExpEntry = rs.length := by
    unfold sizeofExpEntry
    omega
  have hco : rs.length * sizeofExpEntry = 20 * rs.length := by
    unfold sizeofExpEntry
    ring
  have hge : ¬ (encodeFile rs).length < ExperienceSignatureLength := by
    unfold ExperienceSignatureLength
    omega
  have hsig : (encodeFile rs).take ExperienceSignatureLength = ExperienceSignature :=
    take_append_len _ _ _ rfl
  have hloop := loadLoop_noAbort rs sched (fun t ht => hs t (le_of_lt ht)) rs.length 0 st
    (by omega)
  simp only [List.drop_zero] at hloop
  simp only [_load, hnz, if_false, hsub, hcount, hco, hge, hsig, ne_eq, not_true_eq_false,
    Bool.false_eq_true, not_false_eq_true, if_true, hloop, hs rs.length (le_refl _)]

theorem load_encodeFile_schedJ (rs : List ExpEntry) (st : ExpMap) (j : Nat)
    (hsz : 5 + 20 * rs.length < 2 ^ 64) :
    _load (some (encodeFile rs)) st (fun t => decide (j ≤ t)) =
      (linkAll ((rs.take (min j rs.length)).map ExpEntry.norm) st,
       (List.range' 0 (min j rs.length)).flatMap
         (fun t => [LoadEv.checkFlag t, LoadEv.readRec t, LoadEv.linkRec t])
         ++ (if j < rs.length then [LoadEv.checkFlag j] else []),
       if j ≤ rs.length then LoadOutcome.error LoadError.aborted else LoadOutcome.ok) := by
  have hlen : (encodeFile rs).length = 5 + 20 * rs.length := length_encodeFile rs
  have hnz : ¬ (encodeFile rs).length = 0 := by omega
  have hsub : sub64 (encodeFile rs).length ExperienceSignatureLength = 20 * rs.length := by
    rw [hlen]
    unfold sub64 ExperienceSignatureLength
    norm_num at hsz ⊢
    omega
  have hcount : 20 * rs.length / sizeofExpEntry = rs.length := by
    unfold sizeofExpEntry
    omega
  have hco : rs.length * sizeofExpEntry = 20 * rs.length := by
    unfold sizeofExpEntry
    ring
  have hge : ¬ (encodeFile rs).length < ExperienceSignatureLength := by
    unfold ExperienceSignatureLength
    omega
  have hsig : (encodeFile rs).take ExperienceSignatureLength = ExperienceSignature :=
    take_append_len _ _ _ rfl
  have hloop := loadLoop_schedJ rs j rs.length 0 st (by omega) (Nat.zero_le j)
  simp only [List.drop_zero, Nat.sub_zero] at hloop
  by_cases hjl : j < rs.length
  · simp only [_load, hnz, if_false, hsub, hcount, hco, hge, hsig, ne_eq, not_true_eq_false,
      Bool.false_eq_true, not_false_eq_true, if_true, hloop, hjl]
    simp [hjl, le_of_lt hjl]
  · simp only [_load, hnz, if_false, hsub, hcount, hco, hge, hsig, ne_eq, not_true_eq_false,
      Bool.false_eq_true, not_false_eq_true, if_true, hloop, hjl]
    by_cases hle : j ≤ rs.length
    · simp [hjl, hle]
    · simp [hjl, hle]

theorem owrite_none (o : OutS) (data : List Nat) (h : o.bad = false) :
    owrite none o data = ⟨o.buf ++ data, o.ops + 1, false⟩ := by
  simp [owrite, h]

theorem chainWrite_none (c : List ExpEntry) : ∀ (o : OutS), o.bad = false →
    c.foldl
      (fun o e => if MIN_EXP_DEPTH ≤ e.depth then owrite none o (encodeRecord e) else o) o =
      ⟨o.buf ++ (((c.filter (fun e => MIN_EXP_DEPTH ≤ e.depth)).map encodeRecord)).flatten,
       o.ops + (c.filter (fun e => MIN_EXP_DEPTH ≤ e.depth)).length, false⟩ := by
  induction c with
  | nil =>
    intro o h
    simp only [List.foldl_nil, List.filter_nil, List.map_nil, List.flatten_nil, List.append_nil,
      Nat.add_zero]
    cases o
    simp_all
  | cons a l ih =>
    intro o h
    by_cases ha : MIN_EXP_DEPTH ≤ a.depth
    · simp only [List.foldl_cons, if_pos ha, owrite_none o _ h]
      rw [ih _ rfl]
      simp [List.filter_cons, ha]
      omega
    · simp only [List.foldl_cons, if_neg ha]
      rw [ih o h]
      simp [List.filter_cons, ha]

theorem writeAll_none (m : ExpMap) : ∀ (o : OutS), o.bad = false →
    writeAll none m o =
      ⟨o.buf ++ ((savedRecords m).map encodeRecord).flatten,
       o.ops + (savedRecords m).length, false⟩ := by
  induction m with
  | nil =>
    intro o h
    simp only [writeAll, List.foldl_nil, savedRecords, List.map_nil, List.flatten_nil,
      List.append_nil, List.length_nil, Nat.add_zero]
    cases o
    simp_all
  | cons p t ih =>
    intro o h
    simp only [writeAll, List.foldl_cons] at ih ⊢
    rw [chainWrite_none p.2 o h, ih _ rfl]
    simp [savedRecords]
    omega

theorem writePending_nil (ff : Option Nat) (o : OutS) : writePending ff [] o = (o, true) := rfl

/-- The compacting _save over a fresh file with no injected write failure and
empty pending buffers: the file receives the signature followed by every
chain record at or above the minimum depth, in index iteration order. -/
theorem _save_compact (st : ExperienceData) (hpv : st.newPvExp = [])
    (hmpv : st.newMultiPvExp = []) :
    _save st [] true none = (st, encodeFile (savedRecords st.mainExp), true) := by
  have hsig : owrite none ⟨[], 0, false⟩ ExperienceSignature = ⟨ExperienceSignature, 1, false⟩ := by
    simp [owrite]
  have hall := writeAll_none st.mainExp ⟨ExperienceSignature, 1, false⟩ rfl
  simp only [_save, List.length_nil, if_pos rfl, hsig, hall, hpv, hmpv, writePending_nil]
  have hst : { st with newPvExp := ([] : List ExpEntry), newMultiPvExp := ([] : List ExpEntry) }
      = st := by
    cases st
    simp_all
  simp [hst, hall, encodeFile]

theorem merge_move (old e : ExpEntry) : (ExpEntry.merge old e).move = old.move := by
  unfold ExpEntry.merge
  split <;> rfl

theorem mapFind_mapUpdate (m : ExpMap) (kp k : Nat) (c : Chain) :
    mapFind (mapUpdate m kp c) k =
      if k = kp then (mapFind m kp).map (fun _ => c) else mapFind m k := by
  unfold mapFind mapUpdate
  rw [List.find?_map]
  have hcomp : ((fun (p : Nat × Chain) => p.1 == k) ∘
      (fun (p : Nat × Chain) => if p.1 == kp then (p.1, c) else p))
      = (fun (p : Nat × Chain) => p.1 == k) := by
    funext p
    by_cases h : p.1 = kp <;> simp [h]
  rw [hcomp]
  by_cases hk : k = kp
  · subst hk
    cases hf : m.find? (fun p => p.1 == k) with
    | none => simp
    | some p0 =>
      have hp := List.find?_some hf
      simp only [beq_iff_eq] at hp
      simp [hp]
  · cases hf : m.find? (fun p => p.1 == k) with
    | none => simp [hk]
    | some p0 =>
      have hp := List.find?_some hf
      simp only [beq_iff_eq] at hp
      have hpk : ¬ p0.1 = kp := by omega
      simp [hk, hpk]

theorem mapFind_link (m : ExpMap) (e : ExpEntry) (k : Nat) :
    mapFind (link_entry m e).1 k =
      if k = e.key then some (chainStep (mapFind m e.key) e) else mapFind m k := by
  unfold link_entry chainStep
  cases hm : mapFind m e.key with
  | none =>
    have hfind : m.find? (fun p => p.1 == e.key) = none := by
      unfold mapFind at hm
      cases hq : m.find? (fun p => p.1 == e.key) with
      | none => rfl
      | some p0 => rw [hq] at hm; simp at hm
    simp only [mapFind, List.find?_append, hfind, Option.none_or]
    by_cases hk : k = e.key
    · subst hk
      simp [List.find?_cons, mapFind, hfind]
    · have hne : (e.key == k) = false := by
        simp
        omega
      simp only [List.find?_cons, hne]
      simp [hk, mapFind]
  | some c =>
    cases hcf : c.find? (fun x => x.move == e.move) with
    | some x => simp [mapFind_mapUpdate, hm, hcf]
    | none => simp [mapFind_mapUpdate, hm, hcf]

theorem mapFind_linkAll (es : List ExpEntry) : ∀ (m : ExpMap) (k : Nat),
    mapFind (linkAll es m) k =
      (es.filter (fun e => e.key == k)).foldl (fun oc e => some (chainStep oc e)) (mapFind m k) := by
  induction es with
  | nil =>
    intro m k
    rfl
  | cons e t ih =>
    intro m k
    have hstep : linkAll (e :: t) m = linkAll t (link_entry m e).1 := rfl
    rw [hstep, ih]
    by_cases hk : (e.key == k) = true
    · simp only [beq_iff_eq] at hk
      subst hk
      rw [mapFind_link]
      simp [List.filter_cons]
    · have hkk : ¬ k = e.key := by
        simp only [beq_iff_eq] at hk
        omega
      rw [mapFind_link]
      simp [List.filter_cons, hk, hkk]

theorem spliceAfter_perm (e : ExpEntry) (c : Chain) : (spliceAfter e c).Perm (e :: c) := by
  induction c with
  | nil => exact List.Perm.refl _
  | cons a l ih =>
    unfold spliceAfter
    split
    · exact List.Perm.swap e a l
    · exact List.Perm.trans (List.Perm.cons a ih) (List.Perm.swap e a l)

theorem chainInsert_perm (e : ExpEntry) (c : Chain) : (chainInsert e c).Perm (e :: c) := by
  cases c with
  | nil => exact List.Perm.refl _
  | cons a l =>
    have hdef : chainInsert e (a :: l) = if rankGT e a then e :: a :: l else a :: spliceAfter e l :=
      rfl
    rw [hdef]
    split
    · exact List.Perm.refl _
    · exact List.Perm.trans (List.Perm.cons a (spliceAfter_perm e l)) (List.Perm.swap e a l)

theorem insertRanked_perm (e : ExpEntry) (c : Chain) : (insertRanked e c).Perm (e :: c) := by
  induction c with
  | nil => exact List.Perm.refl _
  | cons a l ih =>
    unfold insertRanked
    split
    · exact List.Perm.refl _
    · exact List.Perm.trans (List.Perm.cons a ih) (List.Perm.swap e a l)

theorem updated_moves (c : Chain) (e : ExpEntry) :
    ((c.map fun x => if x.move == e.move then ExpEntry.merge x e else x).map ExpEntry.move)
      = c.map ExpEntry.move := by
  rw [List.map_map]
  apply List.map_congr_left
  intro x _
  by_cases h : x.move = e.move <;> simp [h, merge_move]

theorem mergeChain_moves_nodup (c : Chain) (e : ExpEntry)
    (h : (c.map ExpEntry.move).Nodup) : ((mergeChain c e).map ExpEntry.move).Nodup := by
  unfold mergeChain
  simp only []
  split
  · rw [updated_moves]
    exact h
  · set updated := c.map fun x => if x.move == e.move then ExpEntry.merge x e else x with hupd
    have hu : (updated.map ExpEntry.move).Nodup := by
      rw [hupd, updated_moves]
      exact h
    cases hf : updated.find? (fun x => x.move == e.move) with
    | none => exact hu
    | some node =>
      have hnodemove : node.move = e.move := by
        have := List.find?_some hf
        simpa using this
      have hperm : ((insertRanked node (updated.filter fun x => !(x.move == e.move))).map
          ExpEntry.move).Perm
          (node.move :: ((updated.filter fun x => !(x.move == e.move)).map ExpEntry.move)) := by
        have hp := (insertRanked_perm node (updated.filter fun x => !(x.move == e.move))).map
          ExpEntry.move
        simpa using hp
      apply hperm.symm.nodup
      constructor
      · intro b hb
        rw [List.mem_map] at hb
        obtain ⟨y, hy, hymv⟩ := hb
        have hyp := List.of_mem_filter hy
        simp only [Bool.not_eq_true', beq_eq_false_iff_ne, ne_eq] at hyp
        intro heq
        apply hyp
        rw [hymv, ← heq]
        exact hnodemove
      · exact List.Nodup.sublist ((List.filter_sublist updated).map ExpEntry.move) hu

theorem key_unique (m : ExpMap) (h : (m.map Prod.fst).Nodup) :
    ∀ p q, p ∈ m → q ∈ m → p.1 = q.1 → p = q := by
  induction m with
  | nil =>
    intro p q hp
    simp at hp
  | cons a t ih =>
    intro p q hp hq hpq
    simp only [List.map_cons, List.nodup_cons] at h
    obtain ⟨hnot, hnd⟩ := h
    rcases List.mem_cons.mp hp with hpa | hpt <;> rcases List.mem_cons.mp hq with hqa | hqt
    · rw [hpa, hqa]
    · exfalso
      apply hnot
      rw [hpa] at hpq
      rw [hpq]
      exact List.mem_map_of_mem Prod.fst hqt
    · exfalso
      apply hnot
      rw [hqa] at hpq
      rw [← hpq]
      exact List.mem_map_of_mem Prod.fst hpt
    · exact ih hnd p q hpt hqt hpq

/-- The two invariants of the Ranked Chain Index that the link operation
maintains: keys are unique, and within every chain no two records share a
Move value. -/
def InvC6 (m : ExpMap) : Prop :=
  (m.map Prod.fst).Nodup ∧ ∀ p ∈ m, ((p.2.map ExpEntry.move).Nodup)

theorem mapFind_some_elim (m : ExpMap) (k : Nat) (c : Chain) (h : mapFind m k = some c) :
    ∃ p0, m.find? (fun p => p.1 == k) = some p0 ∧ p0.2 = c ∧ p0 ∈ m ∧ p0.1 = k := by
  unfold mapFind at h
  cases hf : m.find? (fun p => p.1 == k) with
  | none =>
    rw [hf] at h
    simp at h
  | some p0 =>
    rw [hf] at h
    refine ⟨p0, rfl, by simpa using h, List.mem_of_find?_eq_some hf, ?_⟩
    have := List.find?_some hf
    simpa using this

theorem chainStep_some (c : Chain) (e : ExpEntry) :
    chainStep (some c) e =
      (match c.find? (fun x => x.move == e.move) with
        | some _ => mergeChain c e
        | none => chainInsert e c) := rfl

theorem link_entry_none (m : ExpMap) (e : ExpEntry) (hm : mapFind m e.key = none) :
    (link_entry m e).1 = m ++ [(e.key, [e])] := by
  unfold link_entry
  rw [hm]

theorem link_entry_some (m : ExpMap) (e : ExpEntry) (c : Chain)
    (hm : mapFind m e.key = some c) :
    (link_entry m e).1 = mapUpdate m e.key (chainStep (some c) e) := by
  unfold link_entry
  rw [hm, chainStep_some]
  cases hcf : c.find? (fun x => x.move == e.move) <;> simp [hcf]

theorem link_preserves_InvC6 (m : ExpMap) (e : ExpEntry) (h : InvC6 m) :
    InvC6 (link_entry m e).1 := by
  obtain ⟨hkeys, hchains⟩ := h
  cases hm : mapFind m e.key with
  | none =>
    rw [link_entry_none m e hm]
    have hfind : m.find? (fun p => p.1 == e.key) = none := by
      unfold mapFind at hm
      cases hq : m.find? (fun p => p.1 == e.key) with
      | none => rfl
      | some p0 => rw [hq] at hm; simp at hm
    have hnot : e.key ∉ m.map Prod.fst := by
      intro hmem
      obtain ⟨p, hp, hpk⟩ := List.mem_map.mp hmem
      have := List.find?_eq_none.mp hfind p hp
      simp [hpk] at this
    constructor
    · simp only [List.map_append, List.map_cons, List.map_nil]
      rw [List.nodup_append]
      refine ⟨hkeys, List.nodup_singleton _, ?_⟩
      intro a ha hb
      rw [List.mem_singleton] at hb
      rw [hb] at ha
      exact hnot ha
    · intro p hp
      rcases List.mem_append.mp hp with hin | hone
      · exact hchains p hin
      · simp only [List.mem_singleton] at hone
        rw [hone]
        simp
  | some c =>
    rw [link_entry_some m e c hm]
    have hupdkeys : (mapUpdate m e.key (chainStep (some c) e)).map Prod.fst = m.map Prod.fst := by
      unfold mapUpdate
      rw [List.map_map]
      apply List.map_congr_left
      intro p _
      by_cases hpk : p.1 = e.key <;> simp [hpk]
    obtain ⟨p0, hf0, hp02, hp0mem, hp0k⟩ := mapFind_some_elim m e.key c hm
    have hnewchain : ((chainStep (some c) e).map ExpEntry.move).Nodup := by
      have hcnd : (c.map ExpEntry.move).Nodup := by
        rw [← hp02]
        exact hchains p0 hp0mem
      rw [chainStep_some]
      cases hcf : c.find? (fun x => x.move == e.move) with
      | some x =>
        exact mergeChain_moves_nodup c e hcnd
      | none =>
        show ((chainInsert e c).map ExpEntry.move).Nodup
        have hperm := (chainInsert_perm e c).map ExpEntry.move
        apply hperm.symm.nodup
        simp only [List.map_cons]
        constructor
        · intro b hb
          obtain ⟨y, hy, hymv⟩ := List.mem_map.mp hb
          have hne := List.find?_eq_none.mp hcf y hy
          simp only [beq_iff_eq] at hne
          intro heq
          exact hne (hymv.trans heq.symm)
        · exact hcnd
    constructor
    · rw [hupdkeys]
      exact hkeys
    · intro p hp
      unfold mapUpdate at hp
      obtain ⟨q, hq, hfq⟩ := List.mem_map.mp hp
      by_cases hqk : q.1 = e.key
      · have : p = (q.1, chainStep (some c) e) := by
          rw [← hfq]
          simp [hqk]
        rw [this]
        exact hnewchain
      · have : p = q := by
          rw [← hfq]
          simp [hqk]
        rw [this]
        exact hchains q hq

theorem InvC6_linkAll_aux (es : List ExpEntry) : ∀ (m : ExpMap), InvC6 m →
    InvC6 (linkAll es m) := by
  induction es with
  | nil =>
    intro m h
    exact h
  | cons e t ih =>
    intro m h
    exact ih (link_entry m e).1 (link_preserves_InvC6 m e h)

theorem InvC6_empty : InvC6 [] := by
  constructor
  · simp
  · intro p hp
    simp at hp

theorem chainFold_perm (es : List ExpEntry) : ∀ (c : Chain),
    (((c ++ es).map ExpEntry.move).Nodup) →
    ∃ c2, es.foldl (fun oc e => some (chainStep oc e)) (some c) = some c2 ∧
      c2.Perm (c ++ es) := by
  induction es with
  | nil =>
    intro c h
    exact ⟨c, rfl, by simp⟩
  | cons e t ih =>
    intro c h
    have hfind : c.find? (fun x => x.move == e.move) = none := by
      rw [List.find?_eq_none]
      intro x hx
      simp only [beq_iff_eq]
      intro heq
      rw [List.map_append] at h
      have hdisj := List.disjoint_of_nodup_append h
      exact hdisj (List.mem_map_of_mem ExpEntry.move hx)
        (by rw [heq]; simp)
    have hstep : chainStep (some c) e = chainInsert e c := by
      rw [chainStep_some, hfind]
    have hinsperm : (chainInsert e c).Perm (c ++ [e]) := by
      have h2 : (e :: c).Perm (c ++ [e]) := by
        simpa using (@List.perm_middle _ e c []).symm
      exact (chainInsert_perm e c).trans h2
    have hpermfull : ((chainInsert e c) ++ t).Perm (c ++ e :: t) := by
      have h1 : ((chainInsert e c) ++ t).Perm ((c ++ [e]) ++ t) := hinsperm.append_right t
      have h2 : ((c ++ [e]) ++ t).Perm (c ++ e :: t) := by
        rw [List.append_assoc]
        simp
      exact h1.trans h2
    have hnodup2 : (((chainInsert e c) ++ t).map ExpEntry.move).Nodup := by
      apply ((hpermfull.map ExpEntry.move).symm).nodup
      exact h
    obtain ⟨c2, heq, hperm⟩ := ih (chainInsert e c) hnodup2
    refine ⟨c2, ?_, hperm.trans hpermfull⟩
    rw [List.foldl_cons, hstep]
    exact heq

theorem chainFold_getD_perm (fl : List ExpEntry) (h : (fl.map ExpEntry.move).Nodup) :
    ((fl.foldl (fun oc e => some (chainStep oc e)) none).getD []).Perm fl := by
  cases fl with
  | nil => exact List.Perm.refl _
  | cons f t =>
    rw [List.foldl_cons]
    have hstep : chainStep none f = [f] := rfl
    rw [hstep]
    obtain ⟨c2, heq, hperm⟩ := chainFold_perm t [f] (by simpa using h)
    rw [heq]
    simpa using hperm

theorem filter_key_all (c : Chain) (k0 k : Nat) (hc : ∀ x ∈ c, x.key = k0) :
    (c.filter (fun e => e.key == k)) = if k0 = k then c else [] := by
  induction c with
  | nil => simp
  | cons a l ih =>
    have ha : a.key = k0 := hc a (by simp)
    have hl := ih fun x hx => hc x (by simp [hx])
    by_cases hk : k0 = k
    · simp [List.filter_cons, ha, hk, hl]
    · have : ¬ (a.key = k) := by rw [ha]; exact hk
      simp [List.filter_cons, ha, hk, hl, this]

theorem savedRecords_cons (p : Nat × Chain) (t : ExpMap) :
    savedRecords (p :: t) =
      p.2.filter (fun e => MIN_EXP_DEPTH ≤ e.depth) ++ savedRecords t := by
  simp [savedRecords]

theorem savedRecords_filter_none (t : ExpMap) (k : Nat)
    (hq : ∀ q ∈ t, ¬ q.1 = k)
    (hch : ∀ p ∈ t, ∀ x ∈ p.2, x.key = p.1) :
    (savedRecords t).filter (fun e => e.key == k) = [] := by
  induction t with
  | nil => simp [savedRecords]
  | cons p l ih =>
    rw [savedRecords_cons, List.filter_append]
    have hp1 : ¬ p.1 = k := hq p (by simp)
    have hhead : ((p.2.filter (fun e => MIN_EXP_DEPTH ≤ e.depth)).filter
        (fun e => e.key == k)) = [] := by
      have hall : ∀ x ∈ p.2.filter (fun e => MIN_EXP_DEPTH ≤ e.depth), x.key = p.1 :=
        fun x hx => hch p (by simp) x (List.mem_of_mem_filter hx)
      rw [filter_key_all _ p.1 k hall, if_neg hp1]
    rw [hhead, ih (fun q hqt => hq q (by simp [hqt]))
      (fun p2 hp2 x hx => hch p2 (by simp [hp2]) x hx)]
    rfl

theorem chainOf_cons_self (p : Nat × Chain) (t : ExpMap) (k : Nat) (h : p.1 = k) :
    chainOf (p :: t) k = p.2 := by
  unfold chainOf mapFind
  rw [List.find?_cons]
  simp [h]

theorem chainOf_cons_ne (p : Nat × Chain) (t : ExpMap) (k : Nat) (h : ¬ p.1 = k) :
    chainOf (p :: t) k = chainOf t k := by
  unfold chainOf mapFind
  have hb : (p.1 == k) = false := by
    simp only [beq_eq_false_iff_ne, ne_eq]
    exact h
  rw [List.find?_cons, hb]

theorem savedRecords_filter_key (m : ExpMap) (k : Nat)
    (hkeys : (m.map Prod.fst).Nodup)
    (hch : ∀ p ∈ m, ∀ x ∈ p.2, x.key = p.1) :
    (savedRecords m).filter (fun e => e.key == k)
      = (chainOf m k).filter (fun e => MIN_EXP_DEPTH ≤ e.depth) := by
  induction m with
  | nil => simp [savedRecords, chainOf, mapFind]
  | cons p t ih =>
    rw [savedRecords_cons, List.filter_append]
    simp only [List.map_cons, List.nodup_cons] at hkeys
    obtain ⟨hnot, hnd⟩ := hkeys
    by_cases hpk : p.1 = k
    · have hhead : ((p.2.filter (fun e => MIN_EXP_DEPTH ≤ e.depth)).filter
          (fun e => e.key == k)) = p.2.filter (fun e => MIN_EXP_DEPTH ≤ e.depth) := by
        have hall : ∀ x ∈ p.2.filter (fun e => MIN_EXP_DEPTH ≤ e.depth), x.key = p.1 :=
          fun x hx => hch p (by simp) x (List.mem_of_mem_filter hx)
        rw [filter_key_all _ p.1 k hall, if_pos hpk]
      have htail : (savedRecords t).filter (fun e => e.key == k) = [] := by
        apply savedRecords_filter_none t k
        · intro q hqt heq
          apply hnot
          rw [hpk, ← heq]
          exact List.mem_map_of_mem Prod.fst hqt
        · exact fun p2 hp2 x hx => hch p2 (by simp [hp2]) x hx
      rw [hhead, htail, chainOf_cons_self p t k hpk, List.append_nil]
    · have hhead : ((p.2.filter (fun e => MIN_EXP_DEPTH ≤ e.depth)).filter
          (fun e => e.key == k)) = [] := by
        have hall : ∀ x ∈ p.2.filter (fun e => MIN_EXP_DEPTH ≤ e.depth), x.key = p.1 :=
          fun x hx => hch p (by simp) x (List.mem_of_mem_filter hx)
        rw [filter_key_all _ p.1 k hall, if_neg hpk]
      rw [hhead, chainOf_cons_ne p t k hpk, List.nil_append]
      exact ih hnd fun p2 hp2 x hx => hch p2 (by simp [hp2]) x hx

theorem savedRecords_wf (m : ExpMap) (h : ∀ p ∈ m, ∀ x ∈ p.2, x.wf) :
    ∀ e ∈ savedRecords m, e.wf := by
  intro e he
  unfold savedRecords at he
  rw [List.mem_flatten] at he
  obtain ⟨l, hl, hel⟩ := he
  rw [List.mem_map] at hl
  obtain ⟨p, hp, hlp⟩ := hl
  rw [← hlp] at hel
  exact h p hp e (List.mem_of_mem_filter hel)

theorem string_ne_bak (s : String) : ¬ s = s ++ ".bak" := by
  intro h
  have h2 := congrArg String.length h
  rw [String.length_append] at h2
  have h4 : (".bak" : String).length = 4 := rfl
  omega

theorem fsLookup_remove_ne (fs : FS) (r n : String) (h : ¬ n = r) :
    fsLookup (fsRemove fs r) n = fsLookup fs n := by
  induction fs with
  | nil => rfl
  | cons p t ih =>
    unfold fsRemove at ih ⊢
    by_cases hpr : p.1 = r
    · have hb : (p.1 == r) = true := by simp [hpr]
      have hpn : (p.1 == n) = false := by
        simp only [beq_eq_false_iff_ne, ne_eq, hpr]
        intro heq
        exact h heq.symm
      simp only [List.filter_cons, hb, Bool.not_true]
      unfold fsLookup at ih ⊢
      rw [List.find?_cons, hpn]
      exact ih
    · have hb : (p.1 == r) = false := by
        simp only [beq_eq_false_iff_ne, ne_eq]
        exact hpr
      simp only [List.filter_cons, hb, Bool.not_false, if_true]
      unfold fsLookup at ih ⊢
      rw [List.find?_cons, List.find?_cons]
      cases hpn : (p.1 == n) with
      | true => rfl
      | false => exact ih

theorem fsLookup_remove_self (fs : FS) (n : String) :
    fsLookup (fsRemove fs n) n = none := by
  induction fs with
  | nil => rfl
  | cons p t ih =>
    unfold fsRemove at ih ⊢
    by_cases hpn : p.1 = n
    · have hb : (p.1 == n) = true := by simp [hpn]
      simp only [List.filter_cons, hb, Bool.not_true]
      exact ih
    · have hb : (p.1 == n) = false := by
        simp only [beq_eq_false_iff_ne, ne_eq]
        exact hpn
      simp only [List.filter_cons, hb, Bool.not_false, if_true]
      unfold fsLookup at ih ⊢
      rw [List.find?_cons, hb]
      exact ih

theorem fsLookup_set_self (fs : FS) (n : String) (b : List Nat) :
    fsLookup (fsSet fs n b) n = some b := by
  unfold fsSet fsLookup
  rw [List.find?_append]
  have h1 : (fsRemove fs n).find? (fun p => p.1 == n) = none := by
    have := fsLookup_remove_self fs n
    unfold fsLookup at this
    cases hq : (fsRemove fs n).find? (fun p => p.1 == n) with
    | none => rfl
    | some p0 => rw [hq] at this; simp at this
  rw [h1]
  simp [List.find?_cons]

theorem fsLookup_set_ne (fs : FS) (n k : String) (b : List Nat) (h : ¬ k = n) :
    fsLookup (fsSet fs n b) k = fsLookup fs k := by
  unfold fsSet
  have hfind : fsLookup (fsRemove fs n ++ [(n, b)]) k = fsLookup (fsRemove fs n) k := by
    unfold fsLookup
    rw [List.find?_append]
    cases hq : (fsRemove fs n).find? (fun p => p.1 == k) with
    | some p0 => simp
    | none =>
      have hb : (n == k) = false := by
        simp only [beq_eq_false_iff_ne, ne_eq]
        intro heq
        exact h heq.symm
      simp [List.find?_cons, hb]
  rw [hfind, fsLookup_remove_ne fs n k h]

theorem file_exists_of_lookup (fs : FS) (n : String) (b : List Nat)
    (h : fsLookup fs n = some b) : file_exists fs n = true := by
  unfold file_exists
  unfold fsLookup at h
  cases hq : fs.find? (fun p => p.1 == n) with
  | none => rw [hq] at h; simp at h
  | some p0 => simp

/-- C1: evaluation of the link operation at a concrete input showing the chain
does NOT stay sorted by the ranking rule: linking records with depths 10, 5, 7
for one key yields the chain in order (10, 5, 7); the adjacent pair (5, 7)
violates the rule (the source inserts a mid-chain record AFTER the first node
it outranks instead of before it, contradicting the comment at src line 120). -/
theorem C1_chain_not_sorted :
    chainOf (linkAll [⟨1, 100, 0, 10⟩, ⟨1, 101, 0, 5⟩, ⟨1, 102, 0, 7⟩] []) 1
        = [⟨1, 100, 0, 10⟩, ⟨1, 101, 0, 5⟩, ⟨1, 102, 0, 7⟩] ∧
    chainSortedB (chainOf (linkAll [⟨1, 100, 0, 10⟩, ⟨1, 101, 0, 5⟩, ⟨1, 102, 0, 7⟩] []) 1)
        = false := by
  decide

/-- C4 (counterexample): a file consisting of exactly the signature (size N,
zero records) is NOT rejected with the Empty error; the load succeeds and
links nothing. -/
theorem C4_signature_only_file_loads_ok :
    _load (some ExperienceSignature) [] (fun _ => false) = ([], [], LoadOutcome.ok) := by
  decide

/-- C4 (amended): the Empty error is reported exactly for zero-length files;
a signature-only file (zero records) is accepted, loading nothing. -/
theorem C4_empty_iff_zero_size (bytes : List Nat) (st : ExpMap) (sched : Nat → Bool) :
    (((_load (some bytes) st sched).2.2) == LoadOutcome.error LoadError.empty) = bytes.isEmpty ∧
    _load (some ExperienceSignature) st (fun _ => false) = (st, [], LoadOutcome.ok) := by
  constructor
  · cases bytes with
    | nil => simp [_load]
    | cons b t =>
      have hnz : ¬ (b :: t).length = 0 := by simp
      simp only [_load]
      rw [if_neg hnz]
      split
      · rfl
      · split
        · rfl
        · split
          · rfl
          · split
            · rfl
            · split
              · rfl
              · rfl
  · have hsub : sub64 (ExperienceSignature : List Nat).length ExperienceSignatureLength = 0 := by
      decide
    simp only [_load]
    rw [if_neg (by decide : ¬ (ExperienceSignature : List Nat).length = 0), hsub]
    norm_num [sizeofExpEntry, loadLoop]
    simp [ExperienceSignature, ExperienceSignatureLength]

/-- C5 (counterexample): a save that has already written one pending entry and
then suffers a write failure on the next pending entry returns failure WITHOUT
clearing the Pending Buffers (the source returns before clear_new_exp, src
lines 353-359 versus 365). -/
theorem C5_buffers_kept_on_failure :
    _save ⟨"", [], [⟨1, 1, 0, 10⟩, ⟨1, 2, 0, 10⟩], [], false⟩ [] false (some 2)
      = (⟨"", [], [⟨1, 1, 0, 10⟩, ⟨1, 2, 0, 10⟩], [], false⟩,
         ExperienceSignature ++ encodeRecord ⟨1, 1, 0, 10⟩, false) := by
  decide

theorem _save_cases (st : ExperienceData) (oldContent : List Nat) (saveAll : Bool)
    (failFrom : Option Nat) :
    ((_save st oldContent saveAll failFrom).1 = { st with newPvExp := [], newMultiPvExp := [] }
        ∧ (_save st oldContent saveAll failFrom).2.2 = true)
      ∨ ((_save st oldContent saveAll failFrom).1 = st
        ∧ (_save st oldContent saveAll failFrom).2.2 = false) := by
  simp only [_save]
  repeat' split
  all_goals first
    | exact Or.inr ⟨rfl, rfl⟩
    | exact Or.inl ⟨rfl, rfl⟩

/-- C5 (amended): the Pending Buffers are cleared exactly when _save reports
success; any detected write failure (including one after some pending entries
were already written) leaves both buffers unchanged. -/
theorem C5_clear_iff_success (st : ExperienceData) (oldContent : List Nat) (saveAll : Bool)
    (failFrom : Option Nat) :
    (_save st oldContent saveAll failFrom).1.newPvExp
        = (if (_save st oldContent saveAll failFrom).2.2 then [] else st.newPvExp) ∧
    (_save st oldContent saveAll failFrom).1.newMultiPvExp
        = (if (_save st oldContent saveAll failFrom).2.2 then [] else st.newMultiPvExp) := by
  rcases _save_cases st oldContent saveAll failFrom with ⟨h1, h2⟩ | ⟨h1, h2⟩ <;>
    rw [h1, h2] <;> simp

/-- C6: no chain ever holds two records with the same Move value (for every
sequence of link operations from the empty index), and linking the same record
twice into an empty index yields exactly one chain of length 1, the second
link reported as Merged (false).  The merge member is modelled from the spec
§4.2 (it lives in the missing header). -/
theorem C6_no_duplicate_moves :
    (∀ (rs : List ExpEntry) (k : Nat), ((chainOf (linkAll rs []) k).map ExpEntry.move).Nodup) ∧
    (∀ r : ExpEntry, link_entry [] r = ([(r.key, [r])], true) ∧
      link_entry [(r.key, [r])] r = ([(r.key, [r])], false)) := by
  constructor
  · intro rs k
    obtain ⟨hkeys, hchains⟩ := InvC6_linkAll_aux rs [] InvC6_empty
    unfold chainOf
    cases hm : mapFind (linkAll rs []) k with
    | none => simp
    | some c =>
      obtain ⟨p0, hf0, hp02, hp0mem, hp0k⟩ := mapFind_some_elim _ k c hm
      simp only [Option.getD_some]
      rw [← hp02]
      exact hchains p0 hp0mem
  · intro r
    have hmerge : ExpEntry.merge r r = r := by
      unfold ExpEntry.merge
      split
      · rename_i hcond
        exfalso
        rcases hcond with hlt | ⟨heq, hlt⟩
        · omega
        · exact absurd hlt (lt_irrefl _)
      · rfl
    constructor
    · unfold link_entry mapFind
      simp
    · have hm : mapFind [(r.key, [r])] r.key = some [r] := by
        unfold mapFind
        simp [List.find?_cons]
      have hf : [r].find? (fun x => x.move == r.move) = some r := by
        simp [List.find?_cons]
      have hmc : mergeChain [r] r = [r] := by
        unfold mergeChain
        simp [hmerge, chainSortedB]
      simp only [link_entry, hm, hf, hmc]
      unfold mapUpdate
      simp

/-- C7: over an encoded file, with the abort flag first observed set at
iteration j (the monotone schedule `j ≤ t`), the load checks the flag exactly
once before each record it reads and links (the trace is one
check/read/link triple per processed record, plus the final check that
observes the abort), stops before linking further records, reports failure,
and the records already linked remain in the index (the map equals linkAll of
the processed prefix; no rollback). -/
theorem C7_abort_checked_once_per_record (rs : List ExpEntry) (st : ExpMap) (j : Nat)
    (hsz : 5 + 20 * rs.length < 2 ^ 64) :
    _load (some (encodeFile rs)) st (fun t => decide (j ≤ t)) =
      (linkAll ((rs.take (min j rs.length)).map ExpEntry.norm) st,
       (List.range' 0 (min j rs.length)).flatMap
         (fun t => [LoadEv.checkFlag t, LoadEv.readRec t, LoadEv.linkRec t])
         ++ (if j < rs.length then [LoadEv.checkFlag j] else []),
       if j ≤ rs.length then LoadOutcome.error LoadError.aborted else LoadOutcome.ok) :=
  load_encodeFile_schedJ rs st j hsz

/-- C7 (witness): the abort theorem applied to a two-record file with the
flag set from iteration 1 on. -/
theorem C7_witness :
    (5 + 20 * ([⟨1, 10, 3, 9⟩, ⟨1, 11, 4, 9⟩] : List ExpEntry).length < 2 ^ 64) ∧
    _load (some (encodeFile [⟨1, 10, 3, 9⟩, ⟨1, 11, 4, 9⟩])) [] (fun t => decide (1 ≤ t)) =
      (linkAll ((([⟨1, 10, 3, 9⟩, ⟨1, 11, 4, 9⟩] : List ExpEntry).take
          (min 1 ([⟨1, 10, 3, 9⟩, ⟨1, 11, 4, 9⟩] : List ExpEntry).length)).map ExpEntry.norm) [],
       (List.range' 0 (min 1 ([⟨1, 10, 3, 9⟩, ⟨1, 11, 4, 9⟩] : List ExpEntry).length)).flatMap
         (fun t => [LoadEv.checkFlag t, LoadEv.readRec t, LoadEv.linkRec t])
         ++ (if 1 < ([⟨1, 10, 3, 9⟩, ⟨1, 11, 4, 9⟩] : List ExpEntry).length
             then [LoadEv.checkFlag 1] else []),
       if 1 ≤ ([⟨1, 10, 3, 9⟩, ⟨1, 11, 4, 9⟩] : List ExpEntry).length
       then LoadOutcome.error LoadError.aborted else LoadOutcome.ok) :=
  ⟨by decide, C7_abort_checked_once_per_record [⟨1, 10, 3, 9⟩, ⟨1, 11, 4, 9⟩] [] 1 (by decide)⟩

/-- C8: a nonempty file whose size_t payload length is not an exact multiple
of the record size is rejected with Corrupt and the index is left exactly as
it was: nothing is linked. -/
theorem C8_corrupt_rejected (bytes : List Nat) (st : ExpMap) (sched : Nat → Bool)
    (h0 : bytes ≠ [])
    (hd : sub64 bytes.length ExperienceSignatureLength % sizeofExpEntry ≠ 0) :
    _load (some bytes) st sched = (st, [], LoadOutcome.error LoadError.corrupt) := by
  have hnz : ¬ bytes.length = 0 := by
    cases bytes with
    | nil => exact absurd rfl h0
    | cons b t => simp
  have hco : ¬ ¬ ((sub64 bytes.length ExperienceSignatureLength / sizeofExpEntry) * sizeofExpEntry
      ≠ sub64 bytes.length ExperienceSignatureLength) := by
    unfold sizeofExpEntry at hd ⊢
    omega
  simp only [_load]
  rw [if_neg hnz, if_pos (not_not.mp hco)]

/-- C8 (witness): a six-byte file (payload length 1) is rejected as Corrupt
with the index untouched. -/
theorem C8_witness :
    ((ExperienceSignature ++ [0] : List Nat) ≠ []) ∧
    (sub64 (ExperienceSignature ++ [0] : List Nat).length ExperienceSignatureLength
      % sizeofExpEntry ≠ 0) ∧
    _load (some (ExperienceSignature ++ [0])) [(7, [])] (fun _ => false)
      = ([(7, [])], [], LoadOutcome.error LoadError.corrupt) :=
  ⟨by decide, by decide,
    C8_corrupt_rejected (ExperienceSignature ++ [0]) [(7, [])] (fun _ => false)
      (by decide) (by decide)⟩

/-- C9: the defrag command REJECTS an invocation with the filename omitted
(argc = 2) instead of defaulting to the active experience file — the source
requires argc == 3 (src line 608) although its own comment (src lines 602-605)
documents the filename as optional; an invocation supplying one filename
proceeds. -/
theorem C9_defrag_requires_filename :
    defrag ["SugaR", "defrag"] = DefragOutcome.rejected ∧
    defrag ["SugaR", "defrag", "book.exp"] = DefragOutcome.proceeds "book.exp" := by
  constructor
  · rfl
  · decide

/-- C10: an asynchronous load call (synchronous = false) returns true no
matter what the worker later computes; the actual success flag is only
observable afterwards through wait_for_load_finished (or loading_result),
which returns the stored result of the background _load. -/
theorem C10_async_load_returns_true (st : ExperienceData) (file : Option (List Nat))
    (fn : String) (sched : Nat → Bool) :
    (ExperienceData.load st file fn false sched).2 = true ∧
    (ExperienceData.load st file fn false sched).1.wait_for_load_finished
      = ((_load file st.mainExp sched).2.2 == LoadOutcome.ok) := by
  unfold ExperienceData.load ExperienceData.wait_for_load_finished
  simp

/-- C2 (counterexample): compact-saving a store built by link operations and
reloading the file into a fresh store does NOT always reproduce the chain in
the same rank order: for the store built from depths 20, 6, 14, 10 the
original chain is (20, 6, 10, 14) but the reloaded chain is (20, 6, 14, 10). -/
theorem C2_order_not_preserved :
    (chainOf (_load
        (some ((_save ⟨"", linkAll [⟨1, 100, 0, 20⟩, ⟨1, 101, 0, 6⟩, ⟨1, 102, 0, 14⟩,
            ⟨1, 103, 0, 10⟩] [], [], [], false⟩ [] true none).2.1))
        [] (fun _ => false)).1 1
      == (chainOf (linkAll [⟨1, 100, 0, 20⟩, ⟨1, 101, 0, 6⟩, ⟨1, 102, 0, 14⟩,
          ⟨1, 103, 0, 10⟩] []) 1).filter (fun e => MIN_EXP_DEPTH ≤ e.depth)) = false := by
  decide

/-- C2 (amended): a compacting save of a store with empty Pending Buffers into
a fresh file, reloaded into a fresh store, reproduces for every key the
original chain restricted to the minimum depth as a multiset (a permutation);
the rank order is not preserved in general (see the counterexample). -/
theorem C2_roundtrip_perm (st : ExperienceData) (k : Nat)
    (hpv : st.newPvExp = []) (hmpv : st.newMultiPvExp = [])
    (hkeys : (st.mainExp.map Prod.fst).Nodup)
    (hch : ∀ p ∈ st.mainExp, ((p.2.map ExpEntry.move).Nodup ∧ ∀ x ∈ p.2, x.key = p.1 ∧ x.wf))
    (hsz : 5 + 20 * (savedRecords st.mainExp).length < 2 ^ 64) :
    (_save st [] true none).2.2 = true ∧
    (chainOf (_load (some ((_save st [] true none).2.1)) [] (fun _ => false)).1 k).Perm
      ((chainOf st.mainExp k).filter (fun e => MIN_EXP_DEPTH ≤ e.depth)) := by
  have hsave := _save_compact st hpv hmpv
  refine ⟨by rw [hsave], ?_⟩
  rw [hsave]
  have hwf : ∀ e ∈ savedRecords st.mainExp, e.wf :=
    savedRecords_wf st.mainExp (fun p hp x hx => ((hch p hp).2 x hx).2)
  have hload := load_encodeFile_noAbort (savedRecords st.mainExp) [] (fun _ => false) hsz
    (fun t ht => rfl)
  rw [map_norm_of_wf (savedRecords st.mainExp) hwf] at hload
  rw [hload]
  show (chainOf (linkAll (savedRecords st.mainExp) []) k).Perm _
  unfold chainOf
  rw [mapFind_linkAll (savedRecords st.mainExp) [] k]
  have hbase : mapFind ([] : ExpMap) k = none := rfl
  rw [hbase]
  have hchkeys : ∀ p ∈ st.mainExp, ∀ x ∈ p.2, x.key = p.1 :=
    fun p hp x hx => ((hch p hp).2 x hx).1
  rw [savedRecords_filter_key st.mainExp k hkeys hchkeys]
  have hcnd : ((chainOf st.mainExp k).map ExpEntry.move).Nodup := by
    unfold chainOf
    cases hm : mapFind st.mainExp k with
    | none => simp
    | some c =>
      obtain ⟨p0, hf0, hp02, hp0mem, hp0k⟩ := mapFind_some_elim _ k c hm
      simp only [Option.getD_some]
      rw [← hp02]
      exact (hch p0 hp0mem).1
  exact chainFold_getD_perm _
    (List.Nodup.sublist ((List.filter_sublist _).map ExpEntry.move) hcnd)

/-- C2 (witness): the round-trip theorem applied to a one-chain store. -/
theorem C2_witness :
    ((⟨"", [(1, [⟨1, 5, 3, 9⟩])], [], [], false⟩ : ExperienceData).newPvExp = []) ∧
    (_save ⟨"", [(1, [⟨1, 5, 3, 9⟩])], [], [], false⟩ [] true none).2.2 = true ∧
    (chainOf (_load
        (some ((_save ⟨"", [(1, [⟨1, 5, 3, 9⟩])], [], [], false⟩ [] true none).2.1))
        [] (fun _ => false)).1 1).Perm
      ((chainOf (⟨"", [(1, [⟨1, 5, 3, 9⟩])], [], [], false⟩ : ExperienceData).mainExp 1).filter
        (fun e => MIN_EXP_DEPTH ≤ e.depth)) := by
  refine ⟨rfl, ?_, ?_⟩
  · exact (C2_roundtrip_perm ⟨"", [(1, [⟨1, 5, 3, 9⟩])], [], [], false⟩ 1 rfl rfl
      (by decide) (by decide) (by decide)).1
  · exact (C2_roundtrip_perm ⟨"", [(1, [⟨1, 5, 3, 9⟩])], [], [], false⟩ 1 rfl rfl
      (by decide) (by decide) (by decide)).2

/-- C3 (counterexample): a compacting save over an existing file, with the
backup rename succeeded, in which the only chain-record write fails and no
pending-entry write follows: the failure goes undetected (the compaction loop
does not check its writes, src line 315), the save reports success and the
target is NOT restored from the backup; the second conjunct shows the same
call with no injected failure for contrast. -/
theorem C3_undetected_write_failure :
    ExperienceData.save ⟨"", [(1, [⟨1, 7, 5, 10⟩])], [], [], false⟩ [("e.exp", [9, 9, 9])]
        "e.exp" true (some 1)
      = (⟨"", [(1, [⟨1, 7, 5, 10⟩])], [], [], false⟩,
         [("e.exp.bak", [9, 9, 9]), ("e.exp", ExperienceSignature)], true) ∧
    ExperienceData.save ⟨"", [(1, [⟨1, 7, 5, 10⟩])], [], [], false⟩ [("e.exp", [9, 9, 9])]
        "e.exp" true none
      = (⟨"", [(1, [⟨1, 7, 5, 10⟩])], [], [], false⟩,
         [("e.exp.bak", [9, 9, 9]), ("e.exp", ExperienceSignature ++ encodeRecord ⟨1, 7, 5, 10⟩)],
         true) := by
  constructor
  · decide
  · decide

/-- C3 (amended): when a write failure IS detected by _save (signature write
or a pending-entry write), a compacting save over an existing target whose
backup rename succeeded reports failure and renames the backup back over the
target, so the target again holds its pre-save bytes. -/
theorem C3_restore_on_detected_failure (st : ExperienceData) (fs : FS) (fn : String)
    (failFrom : Option Nat) (orig : List Nat)
    (hex : fsLookup fs fn = some orig)
    (hns : (!st.has_new_exp && st.mainExp.isEmpty) = false)
    (hfail : (_save st [] true failFrom).2.2 = false) :
    (ExperienceData.save st fs fn true failFrom).2.2 = false ∧
    fsLookup (ExperienceData.save st fs fn true failFrom).2.1 fn = some orig := by
  have hne : ¬ fn = fn ++ ".bak" := string_ne_bak fn
  have hne2 : ¬ (fn ++ ".bak") = fn := fun h => hne h.symm
  have hfe : file_exists fs fn = true := file_exists_of_lookup fs fn orig hex
  have hcond : (!st.has_new_exp && (!true || st.mainExp.isEmpty)) = false := by
    simp only [Bool.not_true, Bool.false_or]
    exact hns
  have hrm : fsLookup (fsRemove fs (fn ++ ".bak")) fn = some orig := by
    rw [fsLookup_remove_ne fs (fn ++ ".bak") fn hne]
    exact hex
  have hren : fsRename (fsRemove fs (fn ++ ".bak")) fn (fn ++ ".bak")
      = fsSet (fsRemove (fsRemove fs (fn ++ ".bak")) fn) (fn ++ ".bak") orig := by
    unfold fsRename
    rw [hrm]
  have hfs1fn : fsLookup (fsSet (fsRemove (fsRemove fs (fn ++ ".bak")) fn) (fn ++ ".bak") orig)
      fn = none := by
    rw [fsLookup_set_ne _ _ _ _ hne]
    exact fsLookup_remove_self _ fn
  simp only [ExperienceData.save, map_path, hcond, Bool.false_eq_true, if_false, hfe,
    Bool.and_self, if_true, hren, hfs1fn, Option.getD_none, hfail]
  have hfs2bak : fsLookup (fsSet (fsSet (fsRemove (fsRemove fs (fn ++ ".bak")) fn)
      (fn ++ ".bak") orig) fn ([] ++ (_save st [] true failFrom).2.1)) (fn ++ ".bak")
      = some orig := by
    rw [fsLookup_set_ne _ _ _ _ hne2]
    exact fsLookup_set_self _ _ _
  have hren2 : fsRename (fsSet (fsSet (fsRemove (fsRemove fs (fn ++ ".bak")) fn)
      (fn ++ ".bak") orig) fn ([] ++ (_save st [] true failFrom).2.1)) (fn ++ ".bak") fn
      = fsSet (fsRemove (fsSet (fsSet (fsRemove (fsRemove fs (fn ++ ".bak")) fn)
          (fn ++ ".bak") orig) fn ([] ++ (_save st [] true failFrom).2.1)) (fn ++ ".bak"))
          fn orig := by
    unfold fsRename
    rw [hfs2bak]
  rw [hren2, fsLookup_set_self]
  exact ⟨trivial, rfl⟩

/-- C3 (witness): the restore theorem applied to a store whose signature
write fails (failure index 0) over a three-byte existing target. -/
theorem C3_witness :
    (fsLookup [("f", [1, 2, 3])] "f" = some [1, 2, 3]) ∧
    ((!(⟨"", [(1, [⟨1, 2, 3, 9⟩])], [], [], false⟩ : ExperienceData).has_new_exp &&
        (⟨"", [(1, [⟨1, 2, 3, 9⟩])], [], [], false⟩ : ExperienceData).mainExp.isEmpty) = false) ∧
    ((_save ⟨"", [(1, [⟨1, 2, 3, 9⟩])], [], [], false⟩ [] true (some 0)).2.2 = false) ∧
    (ExperienceData.save ⟨"", [(1, [⟨1, 2, 3, 9⟩])], [], [], false⟩ [("f", [1, 2, 3])] "f" true
        (some 0)).2.2 = false ∧
    fsLookup (ExperienceData.save ⟨"", [(1, [⟨1, 2, 3, 9⟩])], [], [], false⟩ [("f", [1, 2, 3])]
        "f" true (some 0)).2.1 "f" = some [1, 2, 3] := by
  refine ⟨rfl, rfl, rfl, ?_⟩
  exact C3_restore_on_detected_failure ⟨"", [(1, [⟨1, 2, 3, 9⟩])], [], [], false⟩
    [("f", [1, 2, 3])] "f" (some 0) [1, 2, 3] rfl rfl rfl

end SugaR
